import Mathlib

/-!
# Verification of the coin-game coordinator

Shallow embedding of the server-side game module of the coin-game
repository (`src/server/game.js` and the two variants in `src/unnamed/`),
together with proofs about the operations `addPlayer`, `placeCoins`,
`move` and `state`.

The game state is a key-value "database": player positions keyed by name,
a score table keyed by name, a set of used names, and a coin map keyed by
board cell.  JavaScript objects keep string keys in insertion order, so
every table is modelled as an association list in insertion order with
unique keys.
-/

set_option autoImplicit false

namespace CoinGame

/-- Board cells and player positions: an `(x, y)` pair of JS numbers,
restricted here to the integers that actually occur. -/
abbrev Cell := Int × Int

/-- Constant `WIDTH = 64` from the source. -/
def WIDTH : Nat := 64

/-- Constant `HEIGHT = 64` from the source. -/
def HEIGHT : Nat := 64

/-- Constant `MAX_PLAYER_NAME_LENGTH = 32` from `src/unnamed/part_001`. -/
def MAX_PLAYER_NAME_LENGTH : Nat := 32

/-- Constant `NUM_COINS = 100` from `src/unnamed/part_001`. -/
def NUM_COINS : Nat := 100

/-- Modelled from the spec: `clamp` lives in `gameutil.js`, which is not
under `src/`; the spec describes it as bounds clamping of a value into
`[lo, hi]` ("clamp each axis independently into [0, WIDTH-1]"). -/
def clamp (v lo hi : Int) : Int := min (max v lo) hi

/-- Modelled from the spec: `permutation(n)` (and `permutationArray`) live
in `gameutil.js`, which is not under `src/`; the spec describes the result
as "a random permutation of all `WIDTH*HEIGHT` cell indices".  A list
satisfies this predicate exactly when it is a permutation of
`0, 1, ..., WIDTH*HEIGHT - 1`. -/
abbrev IsPermutation (perm : List Nat) : Prop :=
  perm.Perm (List.range (WIDTH * HEIGHT))

/-- JS object property read `m[k]`: first (and, with unique keys, only)
binding of `k`, or `undefined` (`none`). -/
def getv {κ α : Type} [DecidableEq κ] : List (κ × α) → κ → Option α
  | [], _ => none
  | (k', v) :: t, k => if k' = k then some v else getv t k

/-- Keys of an association list, in insertion order. -/
def keys {κ α : Type} (m : List (κ × α)) : List κ := m.map Prod.fst

/-- JS object property write `m[k] = v`: overwrite the binding if the key
is present, otherwise append it (JS objects keep string keys in insertion
order). -/
def setv {κ α : Type} [DecidableEq κ] (m : List (κ × α)) (k : κ) (v : α) :
    List (κ × α) :=
  if k ∈ keys m then m.map (fun kv => if kv.1 = k then (k, v) else kv)
  else m ++ [(k, v)]

/-- JS `delete m[k]`: drop the binding of `k`, keeping the order of the
remaining bindings. -/
def delv {κ α : Type} [DecidableEq κ] (m : List (κ × α)) (k : κ) :
    List (κ × α) :=
  m.filter (fun kv => decide (kv.1 ≠ k))

/-- Score increment `database.scores[name] += value`.  Registered players always have a
scores binding (`addPlayer` creates it together with the position), so the
increment is modelled as an in-place update of the existing binding. -/
def bump (m : List (String × Nat)) (k : String) (v : Nat) :
    List (String × Nat) :=
  m.map (fun kv => if kv.1 = k then (kv.1, kv.2 + v) else kv)

/-- The in-memory "database" of `src/unnamed/part_001` (and
`src/server/game.js`): `usednames`, the `player:<name>` position entries,
`scores`, and the `coins` hash keyed by cell. -/
structure GameState where
  usednames : List String
  players : List (String × Cell)
  scores : List (String × Nat)
  coins : List (Cell × Nat)
deriving DecidableEq

/-- The initial database literal `{ scores: {}, usednames: new Set(), coins: {} }`. -/
def initDatabase : GameState :=
  { usednames := [], players := [], scores := [], coins := [] }

/-- Direction table `const delta = (U: [0, -1], R: [1, 0], D: [0, 1], L: [-1, 0])[direction]`
from `move` (src/unnamed/part_001 line 105, src/server/game.js line 73). -/
def deltas (direction : String) : Option (Int × Int) :=
  if direction = "U" then some (0, -1)
  else if direction = "R" then some (1, 0)
  else if direction = "D" then some (0, 1)
  else if direction = "L" then some (-1, 0)
  else none

/-- The candidate cell of a move:
`[clamp(+x + delta[0], 0, WIDTH - 1), clamp(+y + delta[1], 0, HEIGHT - 1)]`
(src/unnamed/part_001 line 109, src/server/game.js line 78). -/
def candidate (p : Cell) (delta : Int × Int) : Cell :=
  (clamp (p.1 + delta.1) 0 ((WIDTH : Int) - 1),
   clamp (p.2 + delta.2) 0 ((HEIGHT : Int) - 1))

/-- Rank-to-value rule `i < 50 ? 1 : i < 75 ? 2 : i < 95 ? 5 : 10` — coin value by rank in
the permutation (src/unnamed/part_001 line 78, src/server/game.js line 49). -/
def coinValue (i : Nat) : Nat :=
  if i < 50 then 1 else if i < 75 then 2 else if i < 95 then 5 else 10

/-- Cell key of a permutation entry: row `Math.floor(position / WIDTH)` and
column `Math.floor(position % WIDTH)` (src/unnamed/part_001 line 79). -/
def cellOf (p : Nat) : Cell := ((p / WIDTH : Nat), (p % WIDTH : Nat))

/-- Repopulation `placeCoins` (src/unnamed/part_001 lines 73-83, src/server/game.js
lines 47-53): take the first `NUM_COINS` entries of a permutation of the
`WIDTH*HEIGHT` cell indices and store each entry's cell, with the value
determined by its rank, into the coin hash.  The permutation, produced by
the missing `gameutil.js`, is a parameter. -/
def placeCoins (perm : List Nat) (coins : List (Cell × Nat)) :
    List (Cell × Nat) :=
  ((perm.take NUM_COINS).enum).foldl
    (fun m ip => setv m (cellOf ip.2) (coinValue ip.1)) coins

/-- The batch of coins a single `placeCoins` call inserts: one entry per
rank `i` of the first `NUM_COINS` permutation entries, keyed by the
entry's cell and carrying `coinValue i`. -/
def batch (perm : List Nat) : List (Cell × Nat) :=
  ((perm.take NUM_COINS).enum).map (fun ip => (cellOf ip.2, coinValue ip.1))

/-- Registration `addPlayer` of `src/unnamed/part_001` (lines 41-71; the length check is
identical in `src/unnamed/part_000` lines 89-110).  The length check is
`name.length !== 0 || name.length <= MAX_PLAYER_NAME_LENGTH`, written here
exactly as in the source.  `pt` stands for the output of
`randomPoint(WIDTH, HEIGHT)` from the missing `gameutil.js` (spec: "a
uniformly random starting position").  Returns the JS callback's
`false`/`true` result together with the in-memory database. -/
def addPlayer (pt : Cell) (name : String) (s : GameState) :
    Bool × GameState :=
  if name.length ≠ 0 ∨ name.length ≤ MAX_PLAYER_NAME_LENGTH then
    if name ∈ s.usednames then (false, s)
    else
      (true,
       { s with
         usednames := s.usednames ++ [name]
         players := setv s.players name pt
         scores := setv s.scores name 0 })
  else (false, s)

/-- Registration `addPlayer` of `src/server/game.js` (lines 37-45): no length check,
reject if the name is used, otherwise create the player. -/
def addPlayerG (pt : Cell) (name : String) (s : GameState) :
    Bool × GameState :=
  if name ∈ s.usednames then (false, s)
  else
    (true,
     { s with
       usednames := s.usednames ++ [name]
       players := setv s.players name pt
       scores := setv s.scores name 0 })

/-- Operation `move(direction, name)` of `src/unnamed/part_001` (lines 104-122).
An unknown direction is a no-op (`if (delta)`).  For a name with no
`player:<name>` entry, `database[playerKey].split(',')` dereferences
`undefined` and throws a `TypeError`; that crash is `none`.  Otherwise:
clamp the candidate cell, collect a coin there if present (`if (value)` —
truthy check), update the position, and repopulate when the coin hash has
become empty.  `perm` is the permutation a repopulation would use. -/
def move (perm : List Nat) (direction name : String) (s : GameState) :
    Option GameState :=
  match deltas direction with
  | none => some s
  | some delta =>
    match getv s.players name with
    | none => none
    | some p =>
      let np := candidate p delta
      let s1 :=
        match getv s.coins np with
        | some v =>
          if v ≠ 0 then
            { s with scores := bump s.scores name v, coins := delv s.coins np }
          else s
        | none => s
      let s2 := { s1 with players := setv s1.players name np }
      some (if s2.coins.isEmpty then { s2 with coins := placeCoins perm s2.coins }
            else s2)

/-- Operation `move(direction)` of `src/server/game.js` (lines 72-91): identical to
the per-player `move` except that the player key is hardcoded to
`'player:alice'` (the source's own TODO: "This has to be an actual
player"), so the position read and written and the score credited are
always alice's. -/
def moveG (perm : List Nat) (direction : String) (s : GameState) :
    Option GameState :=
  match deltas direction with
  | none => some s
  | some delta =>
    match getv s.players "alice" with
    | none => none
    | some p =>
      let np := candidate p delta
      let s1 :=
        match getv s.coins np with
        | some v =>
          if v ≠ 0 then
            { s with scores := bump s.scores "alice" v, coins := delv s.coins np }
          else s
        | none => s
      let s2 := { s1 with players := setv s1.players "alice" np }
      some (if s2.coins.isEmpty then { s2 with coins := placeCoins perm s2.coins }
            else s2)

/-- The comparator passed to `scores.sort` in `state`
(src/server/game.js line 64: `([k1, v1], [k2, v2]) => v1 < v2`;
src/unnamed/part_001 line 96: `([, v1], [, v2]) => v1 < v2`), after the
ToNumber coercion that `Array.prototype.sort` applies to the returned
boolean: `true` becomes `1`, `false` becomes `0`. -/
def scoreCompare (v1 v2 : Nat) : Int := if v1 < v2 then 1 else 0

/-- Positions within the 64×64 board. -/
abbrev InBounds (c : Cell) : Prop :=
  0 ≤ c.1 ∧ c.1 ≤ (WIDTH : Int) - 1 ∧ 0 ≤ c.2 ∧ c.2 ≤ (HEIGHT : Int) - 1

/-- All stored player positions are within board bounds. -/
abbrev PosInBounds (s : GameState) : Prop :=
  ∀ kv ∈ s.players, InBounds kv.2

/-- One state-mutating operation of the coordinator: a registration
(`addPlayer` with an in-bounds random starting point, as `randomPoint`
produces) or a completed move (`move` with a repopulation permutation). -/
inductive Step : GameState → GameState → Prop where
  | register (pt : Cell) (name : String) (s : GameState) :
      InBounds pt → Step s (addPlayer pt name s).2
  | moveStep (perm : List Nat) (direction name : String) (s s' : GameState) :
      IsPermutation perm → move perm direction name s = some s' → Step s s'

/-- States reachable from the startup `placeCoins()` call on the empty
database by registrations and moves. -/
inductive Reachable : GameState → Prop where
  | init (perm : List Nat) : IsPermutation perm →
      Reachable { initDatabase with coins := placeCoins perm initDatabase.coins }
  | step {s s' : GameState} : Reachable s → Step s s' → Reachable s'

/-- A name of 33 characters, one more than `MAX_PLAYER_NAME_LENGTH`. -/
def longName : String := "aaaaaaaaaaaaaaaaaaaaaaaaaaaaaaaaa"

/-- A database with alice registered at the origin and one coin at (1, 1). -/
def aliceOnly : GameState :=
  { usednames := ["alice"], players := [("alice", (0, 0))],
    scores := [("alice", 0)], coins := [((1, 1), 1)] }

/-- A database with alice and bob registered; the coin is far away. -/
def aliceBob : GameState :=
  { usednames := ["alice", "bob"],
    players := [("alice", (3, 3)), ("bob", (5, 5))],
    scores := [("alice", 0), ("bob", 0)],
    coins := [((50, 50), 1)] }

/-- A database in which alice sits next to a coin of value 5 and a second
coin exists elsewhere. -/
def aliceNearCoin : GameState :=
  { usednames := ["alice"], players := [("alice", (10, 10))],
    scores := [("alice", 0)], coins := [((9, 10), 5), ((20, 20), 1)] }

/-- A database in which exactly one coin is left, adjacent to alice. -/
def lastCoinState : GameState :=
  { usednames := ["alice"], players := [("alice", (0, 0))],
    scores := [("alice", 0)], coins := [((0, 1), 5)] }

/-! ## Association-list lemmas -/

section AList

variable {κ α : Type} [DecidableEq κ]

set_option linter.unusedSectionVars false

@[simp] theorem keys_nil : keys ([] : List (κ × α)) = [] := rfl

@[simp] theorem keys_cons (a : κ × α) (t : List (κ × α)) :
    keys (a :: t) = a.1 :: keys t := rfl

@[simp] theorem keys_append (l l' : List (κ × α)) :
    keys (l ++ l') = keys l ++ keys l' := by simp [keys]

@[simp] theorem getv_nil (k : κ) : getv ([] : List (κ × α)) k = none := rfl

theorem getv_cons (a : κ × α) (t : List (κ × α)) (k : κ) :
    getv (a :: t) k = if a.1 = k then some a.2 else getv t k := by
  cases a
  rfl

theorem getv_map_update (m : List (κ × α)) (k : κ) (v : α) (hk : k ∈ keys m) :
    getv (m.map (fun kv => if kv.1 = k then (k, v) else kv)) k = some v := by
  induction m with
  | nil => simp at hk
  | cons a t ih =>
    by_cases h : a.1 = k
    · simp [getv_cons, h]
    · have hk' : k ∈ keys t := by
        rcases List.mem_cons.mp (by simpa using hk) with h1 | h1
        · exact absurd h1.symm h
        · exact h1
      simpa [getv_cons, h] using ih hk'

theorem getv_append_fresh (m : List (κ × α)) (k : κ) (v : α)
    (hk : k ∉ keys m) : getv (m ++ [(k, v)]) k = some v := by
  induction m with
  | nil => simp [getv_cons]
  | cons a t ih =>
    have h : a.1 ≠ k := fun h => hk (by simp [h])
    have hk' : k ∉ keys t := fun h1 => hk (by simp [h1])
    simpa [getv_cons, h] using ih hk'

theorem getv_setv_self (m : List (κ × α)) (k : κ) (v : α) :
    getv (setv m k v) k = some v := by
  unfold setv
  by_cases hk : k ∈ keys m
  · simpa [hk] using getv_map_update m k v hk
  · simpa [hk] using getv_append_fresh m k v hk

theorem getv_map_update_ne (m : List (κ × α)) (k k' : κ) (v : α)
    (h : k' ≠ k) :
    getv (m.map (fun kv => if kv.1 = k then (k, v) else kv)) k' = getv m k' := by
  induction m with
  | nil => simp
  | cons a t ih =>
    by_cases ha : a.1 = k
    · have hak' : a.1 ≠ k' := by rw [ha]; exact Ne.symm h
      simp [getv_cons, ha, Ne.symm h, hak', ih]
    · simp [getv_cons, ha, ih]

theorem getv_append_ne (m : List (κ × α)) (k k' : κ) (v : α) (h : k' ≠ k) :
    getv (m ++ [(k, v)]) k' = getv m k' := by
  induction m with
  | nil => simp [getv_cons, Ne.symm h]
  | cons a t ih =>
    by_cases ha' : a.1 = k'
    · simp [getv_cons, ha']
    · simp [getv_cons, ha', ih]

theorem getv_setv_ne (m : List (κ × α)) (k k' : κ) (v : α) (h : k' ≠ k) :
    getv (setv m k v) k' = getv m k' := by
  unfold setv
  by_cases hk : k ∈ keys m
  · simpa [hk] using getv_map_update_ne m k k' v h
  · simpa [hk] using getv_append_ne m k k' v h

theorem delv_cons (a : κ × α) (t : List (κ × α)) (k : κ) :
    delv (a :: t) k = if a.1 = k then delv t k else a :: delv t k := by
  by_cases ha : a.1 = k <;> simp [delv, List.filter_cons, ha]

theorem getv_delv_self (m : List (κ × α)) (k : κ) :
    getv (delv m k) k = none := by
  induction m with
  | nil => simp [delv]
  | cons a t ih =>
    rw [delv_cons]
    by_cases ha : a.1 = k
    · simpa [ha] using ih
    · simpa [ha, getv_cons] using ih

theorem getv_delv_ne (m : List (κ × α)) (k k' : κ) (h : k' ≠ k) :
    getv (delv m k) k' = getv m k' := by
  induction m with
  | nil => simp [delv]
  | cons a t ih =>
    rw [delv_cons]
    by_cases ha : a.1 = k
    · simpa [ha, getv_cons, Ne.symm h] using ih
    · by_cases ha' : a.1 = k'
      · simp [ha, getv_cons, ha', h]
      · simpa [ha, getv_cons, ha'] using ih

theorem keys_delv_nodup (m : List (κ × α)) (k : κ) (h : (keys m).Nodup) :
    (keys (delv m k)).Nodup :=
  h.sublist ((List.filter_sublist m).map Prod.fst)

theorem keys_map_update (m : List (κ × α)) (k : κ) (v : α) :
    keys (m.map (fun kv => if kv.1 = k then (k, v) else kv)) = keys m := by
  unfold keys
  rw [List.map_map]
  refine List.map_congr_left ?_
  intro kv _
  by_cases h : kv.1 = k <;> simp [h]

theorem keys_setv_nodup (m : List (κ × α)) (k : κ) (v : α)
    (h : (keys m).Nodup) : (keys (setv m k v)).Nodup := by
  unfold setv
  by_cases hk : k ∈ keys m
  · simpa [hk, keys_map_update] using h
  · simp only [hk, if_neg, not_false_iff]
    rw [keys_append]
    simp [List.nodup_append, h, hk]

theorem setv_ne_nil (m : List (κ × α)) (k : κ) (v : α) : setv m k v ≠ [] := by
  unfold setv
  by_cases hk : k ∈ keys m
  · simp only [hk, if_pos]
    intro h
    rw [List.map_eq_nil_iff] at h
    rw [h] at hk
    simp at hk
  · simp [hk]

theorem foldl_setv_nodup (l : List (κ × α)) (m : List (κ × α))
    (h : (keys m).Nodup) :
    (keys (l.foldl (fun acc kv => setv acc kv.1 kv.2) m)).Nodup := by
  induction l generalizing m with
  | nil => simpa using h
  | cons a t ih => simpa using ih (setv m a.1 a.2) (keys_setv_nodup m a.1 a.2 h)

theorem foldl_setv_ne_nil (l : List (κ × α)) (m : List (κ × α))
    (h : m ≠ [] ∨ l ≠ []) :
    l.foldl (fun acc kv => setv acc kv.1 kv.2) m ≠ [] := by
  induction l generalizing m with
  | nil => simpa using h.resolve_right (by simp)
  | cons a t ih =>
    simpa using ih (setv m a.1 a.2) (Or.inl (setv_ne_nil m a.1 a.2))

theorem setv_fresh (m : List (κ × α)) (k : κ) (v : α) (hk : k ∉ keys m) :
    setv m k v = m ++ [(k, v)] := by
  simp [setv, hk]

theorem foldl_setv_fresh (l : List (κ × α)) (m : List (κ × α))
    (hl : (keys l).Nodup) (hd : ∀ k ∈ keys l, k ∉ keys m) :
    l.foldl (fun acc kv => setv acc kv.1 kv.2) m = m ++ l := by
  induction l generalizing m with
  | nil => simp
  | cons a t ih =>
    rw [keys_cons, List.nodup_cons] at hl
    have ha : a.1 ∉ keys m := hd a.1 (by simp)
    have hd' : ∀ k ∈ keys t, k ∉ keys (m ++ [a]) := by
      intro k hk
      have h1 : k ∉ keys m := hd k (by simp [hk])
      have h2 : k ≠ a.1 := fun h => hl.1 (h ▸ hk)
      simp [h1, h2]
    calc (a :: t).foldl (fun acc kv => setv acc kv.1 kv.2) m
        = t.foldl (fun acc kv => setv acc kv.1 kv.2) (setv m a.1 a.2) := by simp
      _ = t.foldl (fun acc kv => setv acc kv.1 kv.2) (m ++ [a]) := by
          rw [setv_fresh m a.1 a.2 ha]
      _ = (m ++ [a]) ++ t := ih (m ++ [a]) hl.2 hd'
      _ = m ++ a :: t := by simp

end AList

/-! ## Coin-batch lemmas -/

theorem cellOf_injective : Function.Injective cellOf := by
  intro p q h
  unfold cellOf at h
  have h1 : p / WIDTH = q / WIDTH := by
    have := congrArg Prod.fst h
    simp only [] at this
    exact_mod_cast this
  have h2 : p % WIDTH = q % WIDTH := by
    have := congrArg Prod.snd h
    simp only [] at this
    exact_mod_cast this
  calc p = WIDTH * (p / WIDTH) + p % WIDTH := (Nat.div_add_mod p WIDTH).symm
    _ = WIDTH * (q / WIDTH) + q % WIDTH := by rw [h1, h2]
    _ = q := Nat.div_add_mod q WIDTH

theorem placeCoins_eq_foldl (perm : List Nat) (coins : List (Cell × Nat)) :
    placeCoins perm coins =
      (batch perm).foldl (fun acc kv => setv acc kv.1 kv.2) coins := by
  unfold placeCoins batch
  rw [List.foldl_map]

theorem batch_keys (perm : List Nat) :
    keys (batch perm) = (perm.take NUM_COINS).map cellOf := by
  unfold batch keys
  rw [List.map_map]
  have h : (Prod.fst ∘ fun ip : Nat × Nat => (cellOf ip.2, coinValue ip.1)) =
      (cellOf ∘ Prod.snd) := rfl
  rw [h, ← List.map_map, List.enum_map_snd]

theorem batch_values (perm : List Nat) :
    (batch perm).map Prod.snd =
      (List.range (perm.take NUM_COINS).length).map coinValue := by
  unfold batch
  rw [List.map_map]
  have h : (Prod.snd ∘ fun ip : Nat × Nat => (cellOf ip.2, coinValue ip.1)) =
      (coinValue ∘ Prod.fst) := rfl
  rw [h, ← List.map_map, List.enum_map_fst]

theorem perm_length (perm : List Nat) (h : IsPermutation perm) :
    perm.length = WIDTH * HEIGHT := by
  simpa using h.length_eq

theorem perm_nodup (perm : List Nat) (h : IsPermutation perm) : perm.Nodup :=
  h.nodup_iff.mpr (List.nodup_range _)

theorem take_length_eq (perm : List Nat) (h : IsPermutation perm) :
    (perm.take NUM_COINS).length = NUM_COINS := by
  rw [List.length_take, perm_length perm h]
  decide

theorem batch_length (perm : List Nat) (h : IsPermutation perm) :
    (batch perm).length = NUM_COINS := by
  unfold batch
  rw [List.length_map, List.enum_length, take_length_eq perm h]

theorem batch_keys_nodup (perm : List Nat) (h : IsPermutation perm) :
    (keys (batch perm)).Nodup := by
  rw [batch_keys]
  exact ((perm_nodup perm h).sublist (List.take_sublist _ _)).map cellOf_injective

theorem batch_values_range (perm : List Nat) (h : IsPermutation perm) :
    (batch perm).map Prod.snd = (List.range NUM_COINS).map coinValue := by
  rw [batch_values, take_length_eq perm h]

theorem placeCoins_nil (perm : List Nat) (h : IsPermutation perm) :
    placeCoins perm [] = batch perm := by
  rw [placeCoins_eq_foldl]
  simpa using foldl_setv_fresh (batch perm) [] (batch_keys_nodup perm h) (by simp)

theorem placeCoins_keys_nodup (perm : List Nat) (coins : List (Cell × Nat))
    (h : (keys coins).Nodup) : (keys (placeCoins perm coins)).Nodup := by
  rw [placeCoins_eq_foldl]
  exact foldl_setv_nodup _ coins h

theorem placeCoins_ne_nil (perm : List Nat) (h : IsPermutation perm)
    (coins : List (Cell × Nat)) : placeCoins perm coins ≠ [] := by
  rw [placeCoins_eq_foldl]
  refine foldl_setv_ne_nil _ coins (Or.inr ?_)
  intro hb
  have hlen := batch_length perm h
  rw [hb] at hlen
  simp [NUM_COINS] at hlen

/-! ## Operation-shape lemmas -/

theorem addPlayer_coins (pt : Cell) (name : String) (s : GameState) :
    ((addPlayer pt name s).2).coins = s.coins := by
  unfold addPlayer
  split
  · split <;> rfl
  · rfl

theorem mem_setv {κ α : Type} [DecidableEq κ] (m : List (κ × α)) (k : κ)
    (v : α) (kv : κ × α) (h : kv ∈ setv m k v) : kv = (k, v) ∨ kv ∈ m := by
  unfold setv at h
  by_cases hk : k ∈ keys m
  · rw [if_pos hk] at h
    rcases List.mem_map.mp h with ⟨b, hb, hbe⟩
    by_cases hbk : b.1 = k
    · left
      rw [← hbe]
      simp [hbk]
    · right
      rw [← hbe]
      simpa [hbk] using hb
  · rw [if_neg hk] at h
    rcases List.mem_append.mp h with h1 | h1
    · right
      exact h1
    · left
      simpa using h1

theorem addPlayer_check_always (name : String) :
    name.length ≠ 0 ∨ name.length ≤ MAX_PLAYER_NAME_LENGTH := by
  by_cases h : name.length = 0
  · right
    rw [h]
    decide
  · left
    exact h

theorem addPlayerG_eq (pt : Cell) (name : String) (s : GameState) :
    addPlayerG pt name s = addPlayer pt name s := by
  unfold addPlayer addPlayerG
  rw [if_pos (addPlayer_check_always name)]

theorem moveG_eq (perm : List Nat) (direction : String) (s : GameState) :
    moveG perm direction s = move perm direction "alice" s := rfl

theorem clamp_bounds (v lo hi : Int) (h : lo ≤ hi) :
    lo ≤ clamp v lo hi ∧ clamp v lo hi ≤ hi :=
  ⟨le_min (le_max_right v lo) h, min_le_right _ _⟩

theorem candidate_inBounds (p : Cell) (delta : Int × Int) :
    InBounds (candidate p delta) := by
  have h1 := clamp_bounds (p.1 + delta.1) 0 ((WIDTH : Int) - 1) (by decide)
  have h2 := clamp_bounds (p.2 + delta.2) 0 ((HEIGHT : Int) - 1) (by decide)
  exact ⟨h1.1, h1.2, h2.1, h2.2⟩

theorem move_baddir (perm : List Nat) (direction name : String)
    (s : GameState) (hd : deltas direction = none) :
    move perm direction name s = some s := by
  unfold move
  rw [hd]

theorem move_unknown (perm : List Nat) (direction name : String)
    (s : GameState) (delta : Int × Int) (hd : deltas direction = some delta)
    (hp : getv s.players name = none) :
    move perm direction name s = none := by
  unfold move
  rw [hd, hp]

theorem move_collect (perm : List Nat) (direction name : String)
    (s : GameState) (delta : Int × Int) (p : Cell) (v : Nat)
    (hd : deltas direction = some delta)
    (hp : getv s.players name = some p)
    (hv : getv s.coins (candidate p delta) = some v) (hv0 : v ≠ 0) :
    move perm direction name s = some
      { s with
        players := setv s.players name (candidate p delta),
        scores := bump s.scores name v,
        coins :=
          if (delv s.coins (candidate p delta)).isEmpty then
            placeCoins perm (delv s.coins (candidate p delta))
          else delv s.coins (candidate p delta) } := by
  unfold move
  rw [hd, hp]
  simp only [hv, if_pos hv0]
  by_cases he : (delv s.coins (candidate p delta)).isEmpty <;> simp [he]

theorem move_nocoin (perm : List Nat) (direction name : String)
    (s : GameState) (delta : Int × Int) (p : Cell)
    (hd : deltas direction = some delta)
    (hp : getv s.players name = some p)
    (hv : getv s.coins (candidate p delta) = none) :
    move perm direction name s = some
      { s with
        players := setv s.players name (candidate p delta),
        coins := if s.coins.isEmpty then placeCoins perm s.coins else s.coins } := by
  unfold move
  rw [hd, hp]
  simp only [hv]
  by_cases he : s.coins.isEmpty <;> simp [he]


theorem getv_bump_self (m : List (String × Nat)) (k : String) (v sc : Nat)
    (h : getv m k = some sc) : getv (bump m k v) k = some (sc + v) := by
  induction m with
  | nil => simp at h
  | cons a t ih =>
    rw [getv_cons] at h
    by_cases ha : a.1 = k
    · rw [if_pos ha] at h
      injection h with h2
      simp [bump, getv_cons, ha, h2]
    · rw [if_neg ha] at h
      simpa [bump, getv_cons, ha] using ih h

theorem move_coin_zero (perm : List Nat) (direction name : String)
    (s : GameState) (delta : Int × Int) (p : Cell) (v : Nat)
    (hd : deltas direction = some delta)
    (hp : getv s.players name = some p)
    (hv : getv s.coins (candidate p delta) = some v) (hv0 : v = 0) :
    move perm direction name s = some
      { s with
        players := setv s.players name (candidate p delta),
        coins := if s.coins.isEmpty then placeCoins perm s.coins else s.coins } := by
  unfold move
  rw [hd, hp]
  simp only [hv, hv0]
  by_cases he : s.coins.isEmpty <;> simp [he]

theorem addPlayer_players (pt : Cell) (name : String) (s : GameState) :
    ((addPlayer pt name s).2).players = s.players ∨
    ((addPlayer pt name s).2).players = setv s.players name pt := by
  unfold addPlayer
  split
  · split
    · left
      rfl
    · right
      rfl
  · left
    rfl

theorem move_players_shape (perm : List Nat) (direction name : String)
    (s s' : GameState) (hmv : move perm direction name s = some s') :
    s'.players = s.players ∨
    ∃ delta p, deltas direction = some delta ∧ getv s.players name = some p ∧
      s'.players = setv s.players name (candidate p delta) := by
  rcases hdel : deltas direction with _ | delta
  · rw [move_baddir perm direction name s hdel] at hmv
    left
    injection hmv with h
    rw [← h]
  · rcases hpl : getv s.players name with _ | p
    · rw [move_unknown perm direction name s delta hdel hpl] at hmv
      cases hmv
    · right
      refine ⟨delta, p, rfl, rfl, ?_⟩
      rcases hv : getv s.coins (candidate p delta) with _ | v
      · rw [move_nocoin perm direction name s delta p hdel hpl hv] at hmv
        injection hmv with h
        rw [← h]
      · by_cases hv0 : v = 0
        · rw [move_coin_zero perm direction name s delta p v hdel hpl hv hv0] at hmv
          injection hmv with h
          rw [← h]
        · rw [move_collect perm direction name s delta p v hdel hpl hv hv0] at hmv
          injection hmv with h
          rw [← h]

theorem move_coins_cases (perm : List Nat) (direction name : String)
    (s s' : GameState) (hmv : move perm direction name s = some s') :
    s'.coins = s.coins ∨
    (∃ c, s'.coins =
      (if (delv s.coins c).isEmpty then placeCoins perm (delv s.coins c)
       else delv s.coins c)) ∨
    s'.coins = (if s.coins.isEmpty then placeCoins perm s.coins else s.coins) := by
  rcases hdel : deltas direction with _ | delta
  · rw [move_baddir perm direction name s hdel] at hmv
    left
    injection hmv with h
    rw [← h]
  · rcases hpl : getv s.players name with _ | p
    · rw [move_unknown perm direction name s delta hdel hpl] at hmv
      cases hmv
    · rcases hv : getv s.coins (candidate p delta) with _ | v
      · rw [move_nocoin perm direction name s delta p hdel hpl hv] at hmv
        right
        right
        injection hmv with h
        rw [← h]
      · by_cases hv0 : v = 0
        · rw [move_coin_zero perm direction name s delta p v hdel hpl hv hv0] at hmv
          right
          right
          injection hmv with h
          rw [← h]
        · rw [move_collect perm direction name s delta p v hdel hpl hv hv0] at hmv
          right
          left
          refine ⟨candidate p delta, ?_⟩
          injection hmv with h
          rw [← h]

theorem step_pos_inbounds (s s' : GameState) (hstep : Step s s')
    (hs : PosInBounds s) : PosInBounds s' := by
  cases hstep with
  | register pt name t hpt =>
    intro kv hkv
    rcases addPlayer_players pt name s with h | h
    · exact hs kv (h ▸ hkv)
    · rcases mem_setv s.players name pt kv (h ▸ hkv) with h1 | h1
      · rw [h1]
        exact hpt
      · exact hs kv h1
  | moveStep perm direction name t t' hperm hmv =>
    intro kv hkv
    rcases move_players_shape perm direction name s s' hmv with h | ⟨delta, p, _, _, h⟩
    · exact hs kv (h ▸ hkv)
    · rcases mem_setv s.players name (candidate p delta) kv (h ▸ hkv) with h1 | h1
      · rw [h1]
        exact candidate_inBounds p delta
      · exact hs kv h1

theorem step_coins_ne_nil (s s' : GameState) (hstep : Step s s')
    (ih : s.coins ≠ []) : s'.coins ≠ [] := by
  cases hstep with
  | register pt name t hpt =>
    rw [addPlayer_coins]
    exact ih
  | moveStep perm direction name t t' hperm hmv =>
    rcases move_coins_cases perm direction name s s' hmv with h | ⟨c, h⟩ | h
    · rw [h]
      exact ih
    · rw [h]
      by_cases he : (delv s.coins c).isEmpty
      · rw [if_pos he]
        exact placeCoins_ne_nil perm hperm _
      · rw [if_neg he]
        intro hcontra
        exact he (by rw [hcontra]; rfl)
    · rw [h]
      by_cases he : s.coins.isEmpty
      · rw [if_pos he]
        exact placeCoins_ne_nil perm hperm _
      · rw [if_neg he]
        intro hcontra
        exact he (by rw [hcontra]; rfl)

theorem step_coins_nodup (s s' : GameState) (hstep : Step s s')
    (ih : (keys s.coins).Nodup) : (keys s'.coins).Nodup := by
  cases hstep with
  | register pt name t hpt =>
    rw [addPlayer_coins]
    exact ih
  | moveStep perm direction name t t' hperm hmv =>
    rcases move_coins_cases perm direction name s s' hmv with h | ⟨c, h⟩ | h
    · rw [h]
      exact ih
    · rw [h]
      by_cases he : (delv s.coins c).isEmpty
      · rw [if_pos he]
        exact placeCoins_keys_nodup perm _ (keys_delv_nodup s.coins c ih)
      · rw [if_neg he]
        exact keys_delv_nodup s.coins c ih
    · rw [h]
      by_cases he : s.coins.isEmpty
      · rw [if_pos he]
        exact placeCoins_keys_nodup perm _ ih
      · rw [if_neg he]
        exact ih

/-! ## Claim theorems -/

/-- C1: for every registered player name and every valid direction, `move`
computes the candidate cell by adding the direction's delta to that
player's position and clamping each axis into the board; if a coin exists
at the candidate cell (coin values are nonzero), the move removes exactly
that coin and adds exactly its value to that player's score, and in every
case it stores the candidate cell as that player's new position (the coin
field afterwards is the collected field, repopulated only if it became
empty). -/
theorem move_registered_spec (perm : List Nat) (direction name : String)
    (s : GameState) (delta : Int × Int) (p : Cell) (sc : Nat)
    (hd : deltas direction = some delta)
    (hp : getv s.players name = some p)
    (hs : getv s.scores name = some sc) :
    ∃ s', move perm direction name s = some s' ∧
      getv s'.players name = some (candidate p delta) ∧
      (∀ v, getv s.coins (candidate p delta) = some v → v ≠ 0 →
        getv s'.scores name = some (sc + v) ∧
        getv (delv s.coins (candidate p delta)) (candidate p delta) = none ∧
        (∀ c, c ≠ candidate p delta →
          getv (delv s.coins (candidate p delta)) c = getv s.coins c) ∧
        s'.coins = (if (delv s.coins (candidate p delta)).isEmpty
            then placeCoins perm (delv s.coins (candidate p delta))
            else delv s.coins (candidate p delta))) ∧
      (getv s.coins (candidate p delta) = none →
        getv s'.scores name = some sc ∧
        s'.coins = (if s.coins.isEmpty then placeCoins perm s.coins
            else s.coins)) := by
  rcases hv : getv s.coins (candidate p delta) with _ | v
  · refine ⟨_, move_nocoin perm direction name s delta p hd hp hv, ?_, ?_, ?_⟩
    · exact getv_setv_self s.players name (candidate p delta)
    · intro v h
      simp at h
    · intro _
      exact ⟨hs, rfl⟩
  · by_cases hv0 : v = 0
    · refine ⟨_, move_coin_zero perm direction name s delta p v hd hp hv hv0, ?_, ?_, ?_⟩
      · exact getv_setv_self s.players name (candidate p delta)
      · intro v' h h0
        injection h with h2
        exact absurd (h2 ▸ hv0) h0
      · intro h
        simp at h
    · refine ⟨_, move_collect perm direction name s delta p v hd hp hv hv0, ?_, ?_, ?_⟩
      · exact getv_setv_self s.players name (candidate p delta)
      · intro v' h _
        injection h with h2
        subst h2
        refine ⟨getv_bump_self s.scores name v sc hs, ?_, ?_, rfl⟩
        · exact getv_delv_self s.coins (candidate p delta)
        · intro c hc
          exact getv_delv_ne s.coins (candidate p delta) c hc
      · intro h
        simp at h

/-- Witness for C1: alice at (10, 10) moves left onto the coin of value 5
at (9, 10) in `aliceNearCoin`. -/
theorem move_registered_spec_witness :
    ∃ s', move [] "L" "alice" aliceNearCoin = some s' ∧
      getv s'.players "alice" = some (candidate (10, 10) (-1, 0)) ∧
      (∀ v, getv aliceNearCoin.coins (candidate (10, 10) (-1, 0)) = some v → v ≠ 0 →
        getv s'.scores "alice" = some (0 + v) ∧
        getv (delv aliceNearCoin.coins (candidate (10, 10) (-1, 0)))
          (candidate (10, 10) (-1, 0)) = none ∧
        (∀ c, c ≠ candidate (10, 10) (-1, 0) →
          getv (delv aliceNearCoin.coins (candidate (10, 10) (-1, 0))) c =
            getv aliceNearCoin.coins c) ∧
        s'.coins = (if (delv aliceNearCoin.coins (candidate (10, 10) (-1, 0))).isEmpty
            then placeCoins [] (delv aliceNearCoin.coins (candidate (10, 10) (-1, 0)))
            else delv aliceNearCoin.coins (candidate (10, 10) (-1, 0)))) ∧
      (getv aliceNearCoin.coins (candidate (10, 10) (-1, 0)) = none →
        getv s'.scores "alice" = some 0 ∧
        s'.coins = (if aliceNearCoin.coins.isEmpty
            then placeCoins [] aliceNearCoin.coins else aliceNearCoin.coins)) :=
  move_registered_spec [] "L" "alice" aliceNearCoin (-1, 0) (10, 10) 0 rfl rfl rfl

/-- C2: repopulation on the empty coin field (all of its call sites run it
with the field empty) produces exactly `NUM_COINS` = 100 coins whose values
are assigned by rank over the first 100 entries of the permutation —
ranks 0-49 get value 1, 50-74 value 2, 75-94 value 5, 95-99 value 10 — so
the value multiset is 50 ones, 25 twos, 20 fives and 5 tens. -/
theorem placeCoins_batch_spec (perm : List Nat) (h : IsPermutation perm) :
    (placeCoins perm []).length = NUM_COINS ∧
    (placeCoins perm []).map Prod.snd = (List.range NUM_COINS).map coinValue ∧
    ((placeCoins perm []).map Prod.snd).count 1 = 50 ∧
    ((placeCoins perm []).map Prod.snd).count 2 = 25 ∧
    ((placeCoins perm []).map Prod.snd).count 5 = 20 ∧
    ((placeCoins perm []).map Prod.snd).count 10 = 5 := by
  have hb := placeCoins_nil perm h
  have hv : (placeCoins perm []).map Prod.snd =
      (List.range NUM_COINS).map coinValue := by
    rw [hb, batch_values_range perm h]
  refine ⟨?_, hv, ?_, ?_, ?_, ?_⟩
  · rw [hb, batch_length perm h]
  all_goals rw [hv]
  all_goals decide

/-- Witness for C2 at the identity permutation of the 4096 cell indices. -/
theorem placeCoins_batch_spec_witness :
    (placeCoins (List.range (WIDTH * HEIGHT)) []).length = NUM_COINS ∧
    (placeCoins (List.range (WIDTH * HEIGHT)) []).map Prod.snd =
      (List.range NUM_COINS).map coinValue ∧
    ((placeCoins (List.range (WIDTH * HEIGHT)) []).map Prod.snd).count 1 = 50 ∧
    ((placeCoins (List.range (WIDTH * HEIGHT)) []).map Prod.snd).count 2 = 25 ∧
    ((placeCoins (List.range (WIDTH * HEIGHT)) []).map Prod.snd).count 5 = 20 ∧
    ((placeCoins (List.range (WIDTH * HEIGHT)) []).map Prod.snd).count 10 = 5 :=
  placeCoins_batch_spec (List.range (WIDTH * HEIGHT)) (List.Perm.refl _)

/-- C3: contrary to the claim, the length check in `addPlayer`
(src/unnamed/part_001 line 42, identical in src/unnamed/part_000 line 90)
is the disjunction `name.length !== 0 || name.length <= 32`, which is true
for every string, so no name is ever rejected for its length: on a fresh
registry every name registers successfully, including the empty name and
the 33-character `longName`, for which the claim demands an InvalidName
rejection with no player created. -/
theorem addPlayer_length_check_never_rejects :
    (∀ name : String, (addPlayer (0, 0) name initDatabase).1 = true) ∧
    longName.length = 33 ∧ "".length = 0 ∧
    (addPlayer (0, 0) longName initDatabase).1 = true ∧
    (addPlayer (0, 0) "" initDatabase).1 = true ∧
    getv ((addPlayer (0, 0) longName initDatabase).2).players longName =
      some (0, 0) := by
  refine ⟨?_, rfl, rfl, by decide, by decide, by decide⟩
  intro name
  unfold addPlayer
  rw [if_pos (addPlayer_check_always name)]
  simp [initDatabase]

/-- C4: contrary to the claim, `move` in src/server/game.js acts on the
hardcoded key 'player:alice' regardless of which session issued the move
(the source's own TODO: "This has to be an actual player"): with alice at
(3, 3) and bob at (5, 5), a "D" move issued from bob's session moves alice
to (3, 4) and leaves bob at (5, 5).  The per-name variant
(src/unnamed/part_001) does act on the named player: the same move applied
to "bob" moves bob to (5, 6) and leaves alice in place. -/
theorem move_hardcoded_alice :
    (moveG [] "D" aliceBob).map
        (fun t => (getv t.players "alice", getv t.players "bob")) =
      some (some (3, 4), some (5, 5)) ∧
    getv aliceBob.players "alice" = some (3, 3) ∧
    (move [] "D" "bob" aliceBob).map
        (fun t => (getv t.players "alice", getv t.players "bob")) =
      some (some (3, 3), some (5, 6)) := by
  refine ⟨by decide, by decide, by decide⟩

/-- C5: contrary to the claim, the scores comparator of `state`
(src/server/game.js line 64, src/unnamed/part_001 line 96) returns the
boolean `v1 < v2`, which `Array.prototype.sort` coerces to 1 or 0.  It is
never negative, and it is inconsistent: for scores 1 and 2 it both demands
an exchange (`scoreCompare 1 2 = 1`) and, with the arguments swapped,
reports the pair as tied (`scoreCompare 2 1 = 0`).  It is therefore not a
consistent comparison function, so ECMAScript leaves the sort order
implementation-defined and descending order is not guaranteed. -/
theorem state_score_comparator_invalid :
    scoreCompare 1 2 = 1 ∧ scoreCompare 2 1 = 0 ∧ scoreCompare 1 1 = 0 ∧
    ∀ v1 v2 : Nat, scoreCompare v1 v2 = 0 ∨ scoreCompare v1 v2 = 1 := by
  refine ⟨rfl, rfl, rfl, ?_⟩
  intro v1 v2
  unfold scoreCompare
  by_cases h : v1 < v2 <;> simp [h]

/-- C6: the candidate cell of any valid direction is clamped into
[0, 63] on both axes regardless of the starting position, and every
coordinator operation (registration with the in-bounds random point, and
any completed move) preserves the invariant that all stored player
positions are within board bounds. -/
theorem move_clamps_and_preserves_bounds :
    (∀ (direction : String) (delta : Int × Int) (p : Cell),
      deltas direction = some delta → InBounds (candidate p delta)) ∧
    (∀ s s' : GameState, PosInBounds s → Step s s' → PosInBounds s') := by
  constructor
  · intro direction delta p _
    exact candidate_inBounds p delta
  · intro s s' hs hstep
    exact step_pos_inbounds s s' hstep hs

/-- Witness for C6: an up move from the corner stays in bounds, and a
registration step from the empty database preserves the bounds invariant. -/
theorem move_clamps_and_preserves_bounds_witness :
    InBounds (candidate (0, 0) (0, -1)) ∧
    PosInBounds (addPlayer (32, 32) "carol" initDatabase).2 :=
  ⟨move_clamps_and_preserves_bounds.1 "U" (0, -1) (0, 0) rfl,
   move_clamps_and_preserves_bounds.2 initDatabase _
     (by intro kv h; simp [initDatabase] at h)
     (Step.register (32, 32) "carol" initDatabase (by decide))⟩

/-- C7: when a move collects the last remaining coin (the field goes from
one coin to none), the very same `move` call repopulates the field with
exactly `NUM_COINS` = 100 fresh coins before returning; consequently every
reachable state — after startup repopulation, registrations, and completed
moves — has a non-empty coin field. -/
theorem coin_repopulation_on_empty :
    (∀ (perm : List Nat) (direction name : String) (s : GameState)
        (delta : Int × Int) (p : Cell) (v : Nat),
      IsPermutation perm →
      deltas direction = some delta →
      getv s.players name = some p →
      getv s.coins (candidate p delta) = some v → v ≠ 0 →
      s.coins.length = 1 →
      ∃ s', move perm direction name s = some s' ∧
        s'.coins = placeCoins perm [] ∧ s'.coins.length = NUM_COINS) ∧
    (∀ s, Reachable s → s.coins ≠ []) := by
  constructor
  · intro perm direction name s delta p v hperm hd hp hv hv0 hlen
    rcases hc : s.coins with _ | ⟨kv, t⟩
    · rw [hc] at hlen
      simp at hlen
    · have ht : t = [] := by
        rw [hc] at hlen
        simpa using hlen
      subst ht
      rw [hc, getv_cons] at hv
      by_cases hk : kv.1 = candidate p delta
      · rw [if_pos hk] at hv
        injection hv with hv2
        have hdel : delv s.coins (candidate p delta) = [] := by
          rw [hc, delv_cons, if_pos hk]
          rfl
        have hmv := move_collect perm direction name s delta p v hd hp
          (by rw [hc, getv_cons, if_pos hk, hv2]) hv0
        rw [hdel] at hmv
        refine ⟨_, hmv, ?_, ?_⟩
        · simp
        · simp [placeCoins_nil perm hperm, batch_length perm hperm]
      · rw [if_neg hk] at hv
        cases hv
  · intro s hreach
    induction hreach with
    | init perm hperm =>
      exact placeCoins_ne_nil perm hperm initDatabase.coins
    | step hr hstep ih =>
      exact step_coins_ne_nil _ _ hstep ih

/-- Witness for C7: alice collects the last coin in `lastCoinState` and the
move returns a field of exactly 100 coins; the startup state with the
identity permutation has a non-empty field. -/
theorem coin_repopulation_on_empty_witness :
    (∃ s', move (List.range (WIDTH * HEIGHT)) "D" "alice" lastCoinState = some s' ∧
      s'.coins = placeCoins (List.range (WIDTH * HEIGHT)) [] ∧
      s'.coins.length = NUM_COINS) ∧
    ({ initDatabase with
        coins := placeCoins (List.range (WIDTH * HEIGHT)) initDatabase.coins } :
      GameState).coins ≠ [] :=
  ⟨coin_repopulation_on_empty.1 (List.range (WIDTH * HEIGHT)) "D" "alice"
      lastCoinState (0, 1) (0, 0) 5 (List.Perm.refl _) rfl rfl rfl (by decide) rfl,
   coin_repopulation_on_empty.2 _
     (Reachable.init (List.range (WIDTH * HEIGHT)) (List.Perm.refl _))⟩

/-- C8: no two coins ever share a cell: the cell-index map is injective,
each repopulation of the empty field places its 100 coins on pairwise
distinct cells, and in every reachable state the coin map's keys are
pairwise distinct (the only other coin mutation is single-coin removal). -/
theorem coins_distinct_cells :
    Function.Injective cellOf ∧
    (∀ perm, IsPermutation perm →
      (keys (placeCoins perm [])).Nodup ∧ (placeCoins perm []).length = NUM_COINS) ∧
    (∀ s, Reachable s → (keys s.coins).Nodup) := by
  refine ⟨cellOf_injective, ?_, ?_⟩
  · intro perm hperm
    constructor
    · exact placeCoins_keys_nodup perm [] (by simp)
    · rw [placeCoins_nil perm hperm, batch_length perm hperm]
  · intro s hreach
    induction hreach with
    | init perm hperm =>
      exact placeCoins_keys_nodup perm initDatabase.coins (by simp [initDatabase])
    | step hr hstep ih =>
      exact step_coins_nodup _ _ hstep ih

/-- Witness for C8: injectivity applied at index 0, a concrete repopulation
batch, and the startup state. -/
theorem coins_distinct_cells_witness :
    (0 : Nat) = 0 ∧
    ((keys (placeCoins (List.range (WIDTH * HEIGHT)) [])).Nodup ∧
      (placeCoins (List.range (WIDTH * HEIGHT)) []).length = NUM_COINS) ∧
    (keys ({ initDatabase with
        coins := placeCoins (List.range (WIDTH * HEIGHT)) initDatabase.coins } :
      GameState).coins).Nodup :=
  ⟨coins_distinct_cells.1 rfl,
   coins_distinct_cells.2.1 (List.range (WIDTH * HEIGHT)) (List.Perm.refl _),
   coins_distinct_cells.2.2 _
     (Reachable.init (List.range (WIDTH * HEIGHT)) (List.Perm.refl _))⟩

/-- C9: contrary to the claim, a move for a name absent from the registry
does not return normally with an UnknownPlayer error — the source reads
`database[playerKey]`, which is `undefined`, and calls `.split(',')` on it,
throwing a TypeError (modelled as `none`); evaluated here at the failing
input: direction "U" for the unregistered name "ghost" against a registry
containing only alice. -/
theorem move_unknown_player_crashes :
    move [] "U" "ghost" aliceOnly = none ∧
    getv aliceOnly.players "ghost" = none := by
  refine ⟨by decide, by decide⟩

/-- C10: rejecting a registration for a name already in the used-name set
is atomic in both variants: `addPlayer` returns false and the entire game
state — used names, positions, scores, coin field — is returned exactly as
it was. -/
theorem addPlayer_taken_name_unchanged (pt : Cell) (name : String)
    (s : GameState) (h : name ∈ s.usednames) :
    addPlayerG pt name s = (false, s) ∧ addPlayer pt name s = (false, s) := by
  constructor
  · unfold addPlayerG
    rw [if_pos h]
  · unfold addPlayer
    rw [if_pos (addPlayer_check_always name), if_pos h]

/-- Witness for C10: re-registering "alice" in `aliceOnly` is rejected and
leaves the state untouched. -/
theorem addPlayer_taken_name_unchanged_witness :
    addPlayerG (0, 0) "alice" aliceOnly = (false, aliceOnly) ∧
    addPlayer (0, 0) "alice" aliceOnly = (false, aliceOnly) :=
  addPlayer_taken_name_unchanged (0, 0) "alice" aliceOnly (by decide)

end CoinGame
